import Mathlib

/-!
Verification development for the idle-airport research advisor
(`src/main.py`).

The embedding models the program's numeric computations over `ℚ`
(Python's `Decimal`/`float` arithmetic idealised as exact rational
arithmetic).  Python dictionaries are modelled as association lists in
insertion order, Python generators as fuel-indexed list producers, and
every Python runtime failure (`KeyError`, `ZeroDivisionError`,
`StatisticsError`, `AssertionError`) as an `Option`/`Except` failure.
-/

namespace Idle

/-- A display unit: short code plus decimal exponent (`Unit` in the source;
the long name plays no computational role and is omitted). -/
structure MoneyUnit where
  short : String
  exp : ℤ
deriving DecidableEq, Repr

/-- `unit.multiplier = 10 ** exponent`. -/
def MoneyUnit.multiplier (u : MoneyUnit) : ℚ := (10 : ℚ) ^ u.exp

/-- The fixed unit registry (`UnitStorage._db`). -/
def UNITS : List MoneyUnit :=
  [⟨"", 0⟩, ⟨"M", 6⟩, ⟨"B", 9⟩, ⟨"T", 12⟩, ⟨"q", 15⟩, ⟨"Q", 18⟩,
   ⟨"s", 21⟩, ⟨"S", 24⟩, ⟨"o", 27⟩, ⟨"N", 30⟩, ⟨"d", 33⟩, ⟨"U", 36⟩,
   ⟨"D", 39⟩, ⟨"Td", 42⟩, ⟨"qd", 45⟩, ⟨"Qd", 48⟩]

/-- `UnitStorage.get_unit_for_exponent`; a missing exponent is a
`KeyError` in Python, modelled as `none`. -/
def get_unit_for_exponent (e : ℤ) : Option MoneyUnit :=
  UNITS.find? fun u => u.exp == e

/-- `UnitStorage.get_unit_for_short`; `KeyError` modelled as `none`. -/
def get_unit_for_short (s : String) : Option MoneyUnit :=
  UNITS.find? fun u => u.short == s

/-- `UnitStorage.is_valid_unit_short`. -/
def is_valid_unit_short (s : String) : Bool :=
  (get_unit_for_short s).isSome

/-- Number of decimal digits of `n` minus one, fuel-indexed so that it
computes by kernel reduction (`fuel ≥ n` suffices).  Used to model
`Decimal.adjusted()` for values with `|x| ≥ 1`. -/
def nlog10 : ℕ → ℕ → ℕ
  | 0, _ => 0
  | fuel + 1, n => if n < 10 then 0 else nlog10 fuel (n / 10) + 1

/-- Smallest `k` with `n ≤ 10 ^ k`, fuel-indexed (`fuel ≥ n` suffices).
Used to model `Decimal.adjusted()` for values with `|x| < 1`. -/
def nclog10 : ℕ → ℕ → ℕ
  | 0, _ => 0
  | fuel + 1, n => if n ≤ 1 then 0 else nclog10 fuel ((n + 9) / 10) + 1

/-- `Decimal(x).adjusted()`: the decimal exponent of the most significant
digit of `x` (sign-blind, and `0` for `x = 0`, as in Python). -/
def adjusted (x : ℚ) : ℤ :=
  if x = 0 then 0
  else if 1 ≤ |x| then (nlog10 (⌊|x|⌋).toNat (⌊|x|⌋).toNat : ℤ)
  else -(nclog10 (⌈|x|⁻¹⌉).toNat (⌈|x|⁻¹⌉).toNat : ℤ)

/-- Round a rational to the nearest integer, ties to even: the
`ROUND_HALF_EVEN` mode `Decimal.quantize` uses by default. -/
def rhe (x : ℚ) : ℤ :=
  let n := ⌊x⌋
  let f := x - n
  if f < 1 / 2 then n
  else if 1 / 2 < f then n + 1
  else if n % 2 = 0 then n else n + 1

/-- `Decimal.quantize`: round `y` to the nearest multiple of the quantum
`q`, ties to even. -/
def quantize (y q : ℚ) : ℚ := (rhe (y / q) : ℚ) * q

/-- `factor_price` (src/main.py lines 76-89): pick a display exponent and
quantum from the adjusted magnitude, returning the quantized mantissa and
the unit.  `x.scaleb(-0) = x` is written directly in the first two
branches; an exponent missing from the registry (a `KeyError` for
magnitudes ≥ 10^51) is `none`. -/
def factor_price (x : ℚ) : Option (ℚ × MoneyUnit) :=
  if adjusted x ≤ 1 then (get_unit_for_exponent 0).map fun u => (quantize x (1 / 100), u)
  else if adjusted x ≤ 7 then (get_unit_for_exponent 0).map fun u => (quantize x 1, u)
  else
    (get_unit_for_exponent (adjusted x - adjusted x % 3)).map
      fun u => (quantize (x * (10 : ℚ) ^ (-(adjusted x - adjusted x % 3))) (1 / 1000), u)

/-- One recorded observation (`Database.Price`). -/
structure Price where
  level : ℕ
  price : ℚ
  unit : MoneyUnit
  discount_level : ℕ
deriving DecidableEq, Repr

/-- The absolute value `self.price * self.unit.multiplier`. -/
def Price.absolute (p : Price) : ℚ := p.price * p.unit.multiplier

/-- `Database.Price.get_price` (src/main.py lines 106-116).  Renormalising
to a different discount level divides out the observed discount, round
trips the base price through `factor_price`, and applies the target
discount.  Python's `ZeroDivisionError` at observed discount 100 and the
`KeyError` inside `factor_price` are modelled as `none`. -/
def Price.get_price (p : Price) (at_discount_level : Option ℕ) : Option ℚ :=
  let price := p.absolute
  match at_discount_level with
  | none => some price
  | some d =>
    if d = p.discount_level then some price
    else if (1 - (p.discount_level : ℚ) / 100) = 0 then none
    else
      (factor_price (price / (1 - (p.discount_level : ℚ) / 100))).map
        fun bu => bu.1 * bu.2.multiplier * (1 - (d : ℚ) / 100)

/-- The progression kind (`increase_type` strings; every string other
than `"double"`/`"triple"` takes the fixed-percent branch). -/
inductive IncreaseType
  | double
  | triple
  | fixed_percent
deriving DecidableEq, Repr

/-- One research track's pricing model (`Database.Elem`).  `prices` is
the sparse table `level ↦ discount ↦ Price`, as insertion-ordered
association lists. -/
structure Elem where
  increase_type : IncreaseType
  increase_percent : ℚ
  last_level : Option ℕ
  prices : List (ℕ × List (ℕ × Price))
deriving DecidableEq, Repr

/-- `last_level is not None and level >= last_level`. -/
def atCeiling (e : Elem) (level : ℕ) : Bool :=
  match e.last_level with
  | some L => L ≤ level
  | none => false

/-- Sequence a list of fallible values; any failure fails the whole list
(a raised exception inside Python's `statistics.mean`). -/
def seqOpt : List (Option ℚ) → Option (List ℚ)
  | [] => some []
  | none :: _ => none
  | some x :: rest => (seqOpt rest).map fun l => x :: l

/-- `statistics.mean` of an exception-free list; empty input raises
`StatisticsError`, modelled as failure. -/
def mean (l : List ℚ) : ℚ := l.sum / l.length

/-- `statistics.mean` over a generator of fallible values. -/
def meanOpt (l : List (Option ℚ)) : Option ℚ :=
  match seqOpt l with
  | none => none
  | some vs => if vs.isEmpty then none else some (mean vs)

/-- `Database.Elem._get_price` / `get_price_information` (src/main.py
lines 125-149): `(price, is_estimate)` for a level/discount pair. -/
def Elem.get_price_information (e : Elem) (level discount_level : ℕ) :
    Option ℚ × Bool :=
  if atCeiling e level then (none, false)
  else
    match List.lookup level e.prices with
    | none => (none, false)
    | some discounts =>
      match List.lookup discount_level discounts with
      | some p => (p.get_price none, false)
      | none =>
        match List.lookup 0 discounts with
        | some zp => (zp.get_price (some discount_level), true)
        | none =>
          (meanOpt (discounts.map fun kp => kp.2.get_price (some discount_level)), true)

/-- Maximum of a list of naturals (`max(dict.keys())`); `none` on empty. -/
def maxNat : List ℕ → Option ℕ
  | [] => none
  | k :: ks => some (ks.foldl Nat.max k)

/-- The exclusive top boundary `get_levels` starts below: `last_level`
when known, else `max(prices.keys()) + 1`; `none` when there is nothing
to scan. -/
def est_top (e : Elem) : Option ℕ :=
  match e.last_level with
  | some L => some L
  | none =>
    match maxNat (e.prices.map Prod.fst) with
    | none => none
    | some M => some (M + 1)

/-- `get_consecutive_pairs`: adjacent level pairs `(k, k+1)` with both
levels recorded, enumerated top-down from the top boundary (the nested
generators yield `(level-1, level)` for `level` descending). -/
def est_pairs (e : Elem) : List (ℕ × ℕ) :=
  match est_top e with
  | none => []
  | some t =>
    (((List.range (t - 1)).map fun k => (k, k + 1)).reverse).filter fun ab =>
      (List.lookup ab.1 e.prices).isSome && (List.lookup ab.2 e.prices).isSome

/-- `calculate_multiplier`: mean growth ratio between two recorded
levels over all discounts observed at both. -/
def calculate_multiplier (e : Elem) (l1 l2 : ℕ) : Option ℚ :=
  match List.lookup l1 e.prices, List.lookup l2 e.prices with
  | some ds1, some ds2 =>
    let common := ((ds1.map Prod.fst).dedup).filter fun k => (List.lookup k ds2).isSome
    let ratios := common.filterMap fun k =>
      match List.lookup k ds2, List.lookup k ds1 with
      | some p2, some p1 => some (p2.absolute / p1.absolute)
      | _, _ => none
    if ratios.isEmpty then none else some (mean ratios)
  | _, _ => none

/-- `get_multipliers`: the per-pair ratios that exist, in scan order. -/
def est_multipliers (e : Elem) : List ℚ :=
  (est_pairs e).filterMap fun ab => calculate_multiplier e ab.1 ab.2

/-- `get_estimates`: one candidate per recorded price, levels taken in
reversed insertion order of the `prices` dict; a level lacking the target
discount contributes one renormalised candidate per observed discount. -/
def est_values (e : Elem) (level discount_level : ℕ) (m : ℚ) : List (Option ℚ) :=
  ((e.prices.map Prod.fst).reverse).flatMap fun L =>
    match List.lookup L e.prices with
    | none => []
    | some ds =>
      match List.lookup discount_level ds with
      | some p => [(p.get_price (some discount_level)).map
          fun v => v * m ^ ((level : ℤ) - (L : ℤ))]
      | none => ds.map fun kp => (kp.2.get_price (some discount_level)).map
          fun v => v * m ^ ((level : ℤ) - (L : ℤ))

/-- `Database.Elem.get_new_price_estimate` (src/main.py lines 174-253):
mean of up to 5 pair multipliers, then mean of up to 5 extrapolated
candidates; `StatisticsError` on an empty mean is `none`. -/
def Elem.get_new_price_estimate (e : Elem) (level discount_level : ℕ) : Option ℚ :=
  if ((est_multipliers e).take 5).isEmpty then none
  else meanOpt
    ((est_values e level discount_level (mean ((est_multipliers e).take 5))).take 5)

/-- `Database.Elem.get_price_info_with_payback` (src/main.py lines
151-172): price (falling back to extrapolation), payback by growth law,
estimate flag.  A zero denominator in the fixed-percent law is Python's
`ZeroDivisionError`, modelled as an unknown payback. -/
def Elem.get_price_info_with_payback (e : Elem) (level discount_level : ℕ) :
    Option ℚ × Option ℚ × Bool :=
  let pe := e.get_price_information level discount_level
  let price := match pe.1 with
    | none => e.get_new_price_estimate level discount_level
    | some p => some p
  let is_estimate := match pe.1 with
    | none => true
    | some _ => pe.2
  match price with
  | none => (none, none, false)
  | some p =>
    match e.increase_type with
    | .double => (some p, some (p * 2), is_estimate)
    | .triple => (some p, some (p * 3), is_estimate)
    | .fixed_percent =>
      let level_percentage := e.increase_percent * level
      if 1 + level_percentage / 100 = 0 then (some p, none, is_estimate)
      else
        let multiplier :=
          (1 + e.increase_percent / 100 + level_percentage / 100) / (1 + level_percentage / 100)
        if multiplier - 1 = 0 then (some p, none, is_estimate)
        else (some p, some (p * multiplier / (multiplier - 1)), is_estimate)

/-- Replace the value stored at an existing key, keeping its position
(Python dict update). -/
def updateAssoc : List (ℕ × List (ℕ × Price)) → ℕ → List (ℕ × Price) →
    List (ℕ × List (ℕ × Price))
  | [], _, _ => []
  | (k1, v1) :: rest, k, v =>
    if k1 = k then (k, v) :: rest else (k1, v1) :: updateAssoc rest k v

/-- Failures of `add_cost`: the `assert discount_level not in discounts`
(an `AssertionError` on a duplicate observation) and the unit-registry
`KeyError`. -/
inductive AddCostError
  | duplicateObservation
  | unknownUnit
deriving DecidableEq, Repr

/-- `Database.Elem.add_cost` (src/main.py lines 255-265), returning the
failure (if any) together with the table state afterwards.  Mirrors the
mutation order: a brand-new level inserts its (still empty) discount dict
before the unit is looked up; the duplicate assertion fires before any
mutation. -/
def Elem.add_cost (e : Elem) (level discount_level : ℕ) (price : ℚ)
    (unit_short : String) : Option AddCostError × Elem :=
  match List.lookup level e.prices with
  | none =>
    match get_unit_for_short unit_short with
    | none => (some .unknownUnit, { e with prices := e.prices ++ [(level, [])] })
    | some u =>
      let nprices := e.prices ++ [(level, [(discount_level, ⟨level, price, u, discount_level⟩)])]
      (none, { e with prices := nprices })
  | some ds =>
    if (List.lookup discount_level ds).isSome then (some .duplicateObservation, e)
    else
      match get_unit_for_short unit_short with
      | none => (some .unknownUnit, e)
      | some u =>
        let nds := ds ++ [(discount_level, ⟨level, price, u, discount_level⟩)]
        (none, { e with prices := updateAssoc e.prices level nds })

/-- `Database.Elem.mark_completed`. -/
def Elem.mark_completed (e : Elem) (ll : ℕ) : Elem :=
  { e with last_level := some ll }

/-- A player's progress on one track (`Research`). -/
structure Research where
  name : String
  level : ℕ
  db_elem : Elem
deriving DecidableEq, Repr

/-- `Research.__init__`: a missing saved level defaults to 0. -/
def research_init (name : String) (start_level : Option ℕ) (e : Elem) : Research :=
  ⟨name, start_level.getD 0, e⟩

/-- `Research.increase_level`. -/
def Research.increase_level (r : Research) : Research :=
  { r with level := r.level + 1 }

/-- One entry of the payback stream (`PaybackValue`). -/
structure PaybackValue where
  research : Research
  cost : ℚ
  is_estimate : Bool
  payback_value : Option ℚ
  level : ℕ
deriving DecidableEq, Repr

/-- `next(r.get_payback_values(discount_level, start), None)`: the first
entry of the forward sequence started at `start` — the entry at exactly
`start`, or `none` when the sequence is exhausted there. -/
def first_payback (r : Research) (discount_level start : ℕ) : Option PaybackValue :=
  if atCeiling r.db_elem start then none
  else
    match r.db_elem.get_price_info_with_payback start discount_level with
    | (none, _, _) => none
    | (some c, pb, est) => some ⟨r, c, est, pb, start⟩

/-- `Research.get_payback_values` (src/main.py lines 343-362), the lazy
forward sequence materialised up to `fuel` entries: consecutive levels
from `start`, stopping at `last_level` or at the first level with no
price information at all. -/
def Research.get_payback_values (r : Research) (discount_level : ℕ) :
    ℕ → ℕ → List PaybackValue
  | _, 0 => []
  | start, fuel + 1 =>
    if atCeiling r.db_elem start then []
    else
      match r.db_elem.get_price_info_with_payback start discount_level with
      | (none, _, _) => []
      | (some c, pb, est) =>
        ⟨r, c, est, pb, start⟩ :: r.get_payback_values discount_level (start + 1) fuel

/-- The scheduler's ordering key: `payback_value if not None else 0`. -/
def pkey (v : PaybackValue) : ℚ := v.payback_value.getD 0

/-- Insert into a list sorted by `pkey`, before the first entry of
greater-or-equal key. -/
def pinsert (v : PaybackValue) : List PaybackValue → List PaybackValue
  | [] => [v]
  | w :: l => if pkey v ≤ pkey w then v :: w :: l else w :: pinsert v l

/-- Stable sort by `pkey` (Python's `sorted` with the scheduler's key). -/
def sortPB : List PaybackValue → List PaybackValue
  | [] => []
  | v :: l => pinsert v (sortPB l)

/-- One iteration of the merge loop in `get_next_payback_values`: pop the
front entry, pull that research's next-level entry, and re-sort with it
appended when it exists. -/
def sched_step (discount_level : ℕ) (ws : List PaybackValue) : List PaybackValue :=
  match ws with
  | [] => []
  | v :: t =>
    match first_payback v.research discount_level (v.level + 1) with
    | none => t
    | some nv => sortPB (t ++ [nv])

/-- The merge loop's output: up to `n` popped entries. -/
def sched_out (discount_level : ℕ) : ℕ → List PaybackValue → List PaybackValue
  | 0, _ => []
  | _ + 1, [] => []
  | n + 1, v :: t => v :: sched_out discount_level n (sched_step discount_level (v :: t))

/-- The seeding loop of `get_next_payback_values`: the first entry of
every research's forward sequence at its current level. -/
def seed_values (researches : List Research) (discount_level : ℕ) : List PaybackValue :=
  researches.filterMap fun r => first_payback r discount_level r.level

/-- `get_next_payback_values` (src/main.py lines 402-423): the merged,
payback-ordered stream, materialised to its first `n` entries. -/
def get_next_payback_values (researches : List Research) (discount_level n : ℕ) :
    List PaybackValue :=
  sched_out discount_level n (sortPB (seed_values researches discount_level))

/-- The two flags of the needs-update query ("discount" and "level" in
the source). -/
inductive UpdateKind
  | discount
  | level
deriving DecidableEq, Repr

/-- The per-research body of `get_researches_needing_update` inside
`IdleAirport.ask_for_database_updates` (src/main.py lines 703-728): flag
a research whose current price is only an estimate, or whose current
level has no price at all and is not past a known ceiling. -/
def needs_update_entry (r : Research) (discount_level : ℕ) :
    Option (UpdateKind × Option ℚ) :=
  let pe := r.db_elem.get_price_information r.level discount_level
  if pe.1.isSome && pe.2 then some (.discount, pe.1)
  else
    if pe.1.isNone && (match r.db_elem.last_level with
        | none => true
        | some L =>
          decide (r.level < L) && (List.lookup r.level r.db_elem.prices).isNone) then
      some (.level, r.db_elem.get_new_price_estimate r.level discount_level)
    else none

/-- The first loop of `State.__init__`: build a `Research` for every
saved entry; a saved name absent from the database is Python's
`database.data[key]` `KeyError`, so loading fails with that name. -/
def load_saved_researches : List (String × ℕ) → List (String × Elem) →
    Except String (List Research)
  | [], _ => .ok []
  | (k, v) :: rest, db =>
    match List.lookup k db with
    | none => .error k
    | some e => (load_saved_researches rest db).map fun rs => research_init k (some v) e :: rs

/-- The second loop of `State.__init__`: append a fresh `Research` (no
saved level) for every database entry whose name is not present yet. -/
def add_new_researches : List (String × Elem) → List Research → List Research
  | [], rs => rs
  | (k, e) :: rest, rs =>
    if k ∈ rs.map Research.name then add_new_researches rest rs
    else add_new_researches rest (rs ++ [research_init k none e])

/-- `State.__init__` reconciliation (src/main.py lines 366-383):
researches from the saved file first, then fresh ones for new database
entries. -/
def state_init_researches (saved : List (String × ℕ)) (db : List (String × Elem)) :
    Except String (List Research) :=
  (load_saved_researches saved db).map fun rs => add_new_researches db rs

/-! ### Definitions following the specification's wording

These are stated from the spec sentences the claims quote (never from the
code) and are compared against the source translation above. -/

/-- The payback formula as the spec states it per progression kind:
`double → 2 × price`, `triple → 3 × price`, `fixed-percent →
price × m / (m − 1)` with `m = (1 + p/100 + p·level/100)/(1 + p·level/100)`. -/
def payback_formula (t : IncreaseType) (percent price : ℚ) (level : ℕ) : ℚ :=
  match t with
  | .double => 2 * price
  | .triple => 3 * price
  | .fixed_percent =>
    let m := (1 + percent / 100 + percent * level / 100) / (1 + percent * level / 100)
    price * m / (m - 1)

/-- The cross-discount renormalization exactly as the claim words it:
`base = price/(1 − observedDiscount/100)` then scaled by
`(1 − targetDiscount/100)`, with no quantization in between. -/
def exact_renorm (p : Price) (d : ℕ) : ℚ :=
  p.absolute / (1 - (p.discount_level : ℚ) / 100) * (1 - (d : ℚ) / 100)

/-- The quantized-base renormalization the code performs: the base price
is round-tripped through the display quantizer `factor_price` before the
target discount is applied. -/
def quantized_base_renorm (p : Price) (d : ℕ) : Option ℚ :=
  (factor_price (p.absolute / (1 - (p.discount_level : ℚ) / 100))).map
    fun bu => bu.1 * bu.2.multiplier * (1 - (d : ℚ) / 100)

/-- Distance between a recorded level and the target level. -/
def ldist (level L : ℕ) : ℕ := ((L : ℤ) - (level : ℤ)).natAbs

/-- "Closest to the target first": order two recorded levels by distance
to the target, ties broken toward the smaller level. -/
def closer (level a b : ℕ) : Prop :=
  ldist level a < ldist level b ∨ (ldist level a = ldist level b ∧ a ≤ b)

instance (level a b : ℕ) : Decidable (closer level a b) :=
  inferInstanceAs (Decidable (_ ∨ _))

/-- The claim's enumeration of consecutive recorded-level pairs:
"scanning outward from the edge nearest the unknown target level toward
the opposite boundary".  The boundaries are level 0 and the top level
below `est_top`; the scan runs bottom-up when the target is at least as
close to the bottom edge, top-down otherwise. -/
def spec_pairs (e : Elem) (level : ℕ) : List (ℕ × ℕ) :=
  match est_top e with
  | none => []
  | some t =>
    (if ldist level 0 ≤ ldist level (t - 1)
      then (List.range (t - 1)).map fun k => (k, k + 1)
      else ((List.range (t - 1)).map fun k => (k, k + 1)).reverse).filter fun ab =>
      (List.lookup ab.1 e.prices).isSome && (List.lookup ab.2 e.prices).isSome

/-- The claim's multiplier: the mean of up to the 5 most relevant pair
growth ratios (each pair ratio averaged over the discounts observed at
both levels, as in the code). -/
def spec_multiplier (e : Elem) (level : ℕ) : Option ℚ :=
  if (((spec_pairs e level).filterMap fun ab => calculate_multiplier e ab.1 ab.2).take 5).isEmpty
  then none
  else some (mean (((spec_pairs e level).filterMap fun ab => calculate_multiplier e ab.1 ab.2).take 5))

/-- The recorded levels ordered closest to the target first. -/
def spec_closest (e : Elem) (level : ℕ) : List ℕ :=
  List.insertionSort (closer level) ((e.prices.map Prod.fst).dedup)

/-- `estimateMissingLevel` as the claim words it: the scan direction
picked from the nearest edge, one estimate `price(L, discountLevel) ×
m^(level − L)` per known level, levels taken closest to the target
first, up to 5 of them, averaged. -/
def spec_estimate (e : Elem) (level discount_level : ℕ) : Option ℚ :=
  match spec_multiplier e level with
  | none => none
  | some m =>
    meanOpt (((spec_closest e level).take 5).map fun L =>
      ((e.get_price_information L discount_level).1).map
        fun v => v * m ^ ((level : ℤ) - (L : ℤ)))

/-! ### Scheduler lemmas -/

/-- The scheduler's ordering relation. -/
def pble (a b : PaybackValue) : Prop := pkey a ≤ pkey b

theorem pinsert_perm (v : PaybackValue) (l : List PaybackValue) :
    (pinsert v l).Perm (v :: l) := by
  induction l with
  | nil => exact List.Perm.refl _
  | cons w l ih =>
    unfold pinsert
    by_cases h : pkey v ≤ pkey w
    · simp [h]
    · simp only [if_neg h]
      exact (ih.cons w).trans (List.Perm.swap v w l)

theorem sortPB_perm (l : List PaybackValue) : (sortPB l).Perm l := by
  induction l with
  | nil => exact List.Perm.refl _
  | cons v l ih => exact (pinsert_perm v (sortPB l)).trans (ih.cons v)

theorem mem_sortPB {v : PaybackValue} {l : List PaybackValue} :
    v ∈ sortPB l ↔ v ∈ l := (sortPB_perm l).mem_iff

theorem pinsert_sorted {v : PaybackValue} {l : List PaybackValue}
    (h : l.Sorted pble) : (pinsert v l).Sorted pble := by
  induction l with
  | nil => simp [pinsert, List.Sorted]
  | cons w l ih =>
    rcases List.sorted_cons.mp h with ⟨hw, hl⟩
    unfold pinsert
    by_cases hvw : pkey v ≤ pkey w
    · rw [if_pos hvw]
      refine List.sorted_cons.mpr ⟨?_, h⟩
      intro b hb
      rcases List.mem_cons.mp hb with rfl | hb
      · exact hvw
      · exact le_trans hvw (hw b hb)
    · rw [if_neg hvw]
      refine List.sorted_cons.mpr ⟨?_, ih hl⟩
      intro b hb
      rcases List.mem_cons.mp ((pinsert_perm v l).mem_iff.mp hb) with rfl | hb
      · exact le_of_not_le hvw
      · exact hw b hb

theorem sortPB_sorted (l : List PaybackValue) : (sortPB l).Sorted pble := by
  induction l with
  | nil => simp [sortPB, List.Sorted]
  | cons v l ih => exact pinsert_sorted ih

theorem sched_step_cons (d : ℕ) (v : PaybackValue) (t : List PaybackValue) :
    sched_step d (v :: t) =
      match first_payback v.research d (v.level + 1) with
      | none => t
      | some nv => sortPB (t ++ [nv]) := rfl

theorem sched_step_sorted {d : ℕ} {ws : List PaybackValue}
    (h : ws.Sorted pble) : (sched_step d ws).Sorted pble := by
  match ws with
  | [] => exact List.sorted_nil
  | v :: t =>
    rw [sched_step_cons]
    rcases first_payback v.research d (v.level + 1) with _ | nv
    · exact (List.sorted_cons.mp h).2
    · exact sortPB_sorted _

theorem first_payback_shape {r : Research} {d s : ℕ} {v : PaybackValue}
    (h : first_payback r d s = some v) : v.research = r ∧ v.level = s := by
  unfold first_payback at h
  by_cases hc : atCeiling r.db_elem s
  · simp [hc] at h
  · simp only [hc, Bool.false_eq_true, if_false] at h
    rcases hm : r.db_elem.get_price_info_with_payback s d with ⟨p, pb, est⟩
    rw [hm] at h
    match p with
    | none => simp at h
    | some c =>
      simp only [Option.some.injEq] at h
      rw [← h]
      exact ⟨rfl, rfl⟩

theorem mem_sched_step {d : ℕ} {v : PaybackValue} {ws : List PaybackValue}
    (h : v ∈ sched_step d ws) :
    v ∈ ws.drop 1 ∨ ∃ w, ws.head? = some w ∧
      first_payback w.research d (w.level + 1) = some v := by
  match ws with
  | [] => simp [sched_step] at h
  | w :: t =>
    rw [sched_step_cons] at h
    rcases hf : first_payback w.research d (w.level + 1) with _ | nv
    · rw [hf] at h
      exact Or.inl h
    · rw [hf] at h
      rcases List.mem_append.mp (mem_sortPB.mp h) with ht | hnv
      · exact Or.inl ht
      · refine Or.inr ⟨w, rfl, ?_⟩
        rw [← List.mem_singleton.mp hnv] at hf
        exact hf

/-- Research identities in the working set are pairwise distinct. -/
def wsNodup (ws : List PaybackValue) : Prop :=
  (ws.map fun v => v.research).Nodup

theorem sched_step_nodup {d : ℕ} {ws : List PaybackValue}
    (h : wsNodup ws) : wsNodup (sched_step d ws) := by
  match ws with
  | [] => exact h
  | v :: t =>
    unfold wsNodup at h
    simp only [List.map_cons, List.nodup_cons] at h
    unfold wsNodup
    rw [sched_step_cons]
    rcases hf : first_payback v.research d (v.level + 1) with _ | nv
    · exact h.2
    · have hpm := (sortPB_perm (t ++ [nv])).map fun w => w.research
      refine (hpm.nodup_iff).mpr ?_
      rw [List.map_append]
      refine List.Nodup.append h.2 (by simp) ?_
      intro x hx hnv
      simp only [List.map_cons, List.map_nil, List.mem_singleton] at hnv
      rw [(first_payback_shape hf).1] at hnv
      exact h.1 (hnv ▸ hx)

theorem sched_out_mem {d : ℕ} :
    ∀ {n : ℕ} {ws : List PaybackValue} {e : PaybackValue},
      e ∈ sched_out d n ws →
      ∃ w ∈ ws, w.research = e.research ∧ w.level ≤ e.level := by
  intro n
  induction n with
  | zero => intro ws e h; simp [sched_out] at h
  | succ n ih =>
    intro ws e h
    match ws with
    | [] => simp [sched_out] at h
    | v :: t =>
      rw [sched_out] at h
      rcases List.mem_cons.mp h with rfl | h
      · exact ⟨e, List.mem_cons_self _ _, rfl, le_rfl⟩
      · rcases ih h with ⟨w, hw, hr, hl⟩
        rcases mem_sched_step hw with ht | ⟨w0, hw0, hf⟩
        · exact ⟨w, List.mem_cons_of_mem _ (by simpa using ht), hr, hl⟩
        · have hshape := first_payback_shape hf
          simp only [List.head?_cons, Option.some.injEq] at hw0
          refine ⟨v, List.mem_cons_self _ _, ?_, ?_⟩
          · rw [hw0, ← hshape.1]
            exact hr
          · have : w.level = v.level + 1 := by rw [hshape.2, hw0]
            omega

theorem sched_out_pairwise {d : ℕ} :
    ∀ {n : ℕ} {ws : List PaybackValue}, wsNodup ws →
      (sched_out d n ws).Pairwise
        (fun x y => x.research = y.research → x.level < y.level) := by
  intro n
  induction n with
  | zero => intro ws _; simp [sched_out]
  | succ n ih =>
    intro ws hnd
    match ws with
    | [] => simp [sched_out]
    | v :: t =>
      rw [sched_out]
      refine List.pairwise_cons.mpr ⟨?_, ih (sched_step_nodup hnd)⟩
      intro e he hre
      rcases sched_out_mem he with ⟨w, hw, hr, hl⟩
      rcases mem_sched_step hw with ht | ⟨w0, hw0, hf⟩
      · exfalso
        unfold wsNodup at hnd
        simp only [List.map_cons, List.nodup_cons] at hnd
        refine hnd.1 ?_
        have hwv : w.research = v.research := by rw [hr, hre]
        have hmem : w ∈ t := by simpa using ht
        have h2 : w.research ∈ List.map (fun x : PaybackValue => x.research) t :=
          List.mem_map_of_mem (fun x : PaybackValue => x.research) hmem
        rwa [hwv] at h2
      · have hshape := first_payback_shape hf
        simp only [List.head?_cons, Option.some.injEq] at hw0
        have : w.level = v.level + 1 := by rw [hshape.2, hw0]
        omega

theorem sched_step_nil (d : ℕ) : sched_step d [] = [] := rfl

theorem iterate_sched_step_nil (d k : ℕ) : (sched_step d)^[k] [] = [] :=
  Function.iterate_fixed (sched_step_nil d) k

theorem iterate_sched_step_sorted {d : ℕ} {ws : List PaybackValue}
    (h : ws.Sorted pble) (k : ℕ) : ((sched_step d)^[k] ws).Sorted pble := by
  induction k generalizing ws with
  | zero => exact h
  | succ k ih =>
    rw [Function.iterate_succ_apply]
    exact ih (sched_step_sorted h)

theorem sched_out_closed_form (d : ℕ) :
    ∀ (n : ℕ) (ws : List PaybackValue),
      sched_out d n ws = (List.range n).filterMap fun k => ((sched_step d)^[k] ws).head? := by
  intro n
  induction n with
  | zero => intro ws; simp [sched_out]
  | succ n ih =>
    intro ws
    match ws with
    | [] =>
      rw [sched_out]
      symm
      simp [iterate_sched_step_nil]
    | v :: t =>
      rw [sched_out, List.range_succ_eq_map, List.filterMap_cons, List.filterMap_map]
      simp only [Function.iterate_zero_apply, List.head?_cons]
      congr 1
      rw [ih (sched_step d (v :: t))]
      rfl

theorem mem_sched_step_of_mem_tail {d : ℕ} {x v : PaybackValue}
    {t : List PaybackValue} (h : x ∈ t) : x ∈ sched_step d (v :: t) := by
  rw [sched_step_cons]
  rcases first_payback v.research d (v.level + 1) with _ | nv
  · exact h
  · exact mem_sortPB.mpr (List.mem_append_left _ h)

theorem sched_out_emits_before {d : ℕ} {a b : PaybackValue}
    (hab : pkey a < pkey b) :
    ∀ {n : ℕ} {ws : List PaybackValue}, ws.Sorted pble → a ∈ ws → b ∈ ws →
      ∀ {j : ℕ}, (sched_out d n ws)[j]? = some b →
        ∃ i, i < j ∧ (sched_out d n ws)[i]? = some a := by
  intro n
  induction n with
  | zero => intro ws _ _ _ j hj; simp [sched_out] at hj
  | succ n ih =>
    intro ws hs ha hb j hj
    match ws with
    | [] => simp at ha
    | v :: t =>
      rw [sched_out] at hj ⊢
      by_cases hva : v = a
      · refine ⟨0, ?_, by simp [hva]⟩
        rcases j with _ | j
        · exfalso
          simp only [List.getElem?_cons_zero, Option.some.injEq] at hj
          rw [← hva, hj] at hab
          exact lt_irrefl _ hab
        · omega
      · have hat : a ∈ t := by
          rcases List.mem_cons.mp ha with rfl | h
          · exact absurd rfl hva
          · exact h
        have hmin : pkey v ≤ pkey a := (List.sorted_cons.mp hs).1 a hat
        have hvb : v ≠ b := by
          intro hes
          rw [← hes] at hab
          exact absurd (lt_of_le_of_lt hmin hab) (lt_irrefl _)
        rcases j with _ | j
        · exfalso
          simp only [List.getElem?_cons_zero, Option.some.injEq] at hj
          exact hvb hj
        · have hbt : b ∈ t := by
            rcases List.mem_cons.mp hb with rfl | h
            · exact absurd rfl hvb
            · exact h
          rw [List.getElem?_cons_succ] at hj
          rcases ih (sched_step_sorted hs) (mem_sched_step_of_mem_tail hat)
              (mem_sched_step_of_mem_tail hbt) hj with ⟨i, hi, hout⟩
          exact ⟨i + 1, by omega, by rw [List.getElem?_cons_succ]; exact hout⟩

theorem seed_research_mem {d : ℕ} {x : PaybackValue} :
    ∀ {researches : List Research}, x ∈ seed_values researches d →
      x.research ∈ researches := by
  intro researches
  induction researches with
  | nil => intro h; simp [seed_values] at h
  | cons r rest ih =>
    intro h
    unfold seed_values at h
    rw [List.filterMap_cons] at h
    rcases hf : first_payback r d r.level with _ | v
    · rw [hf] at h
      exact List.mem_cons_of_mem _ (ih h)
    · rw [hf] at h
      rcases List.mem_cons.mp h with rfl | h2
      · rw [(first_payback_shape hf).1]
        exact List.mem_cons_self _ _
      · exact List.mem_cons_of_mem _ (ih h2)

theorem seed_nodup {d : ℕ} {researches : List Research}
    (h : researches.Nodup) : wsNodup (seed_values researches d) := by
  induction researches with
  | nil => simp [wsNodup, seed_values]
  | cons r rest ih =>
    rcases List.nodup_cons.mp h with ⟨hr, hrest⟩
    unfold wsNodup seed_values
    rw [List.filterMap_cons]
    rcases hf : first_payback r d r.level with _ | v
    · exact ih hrest
    · rw [List.map_cons, List.nodup_cons]
      refine ⟨?_, ih hrest⟩
      intro hmem
      rcases List.mem_map.mp hmem with ⟨y, hy, hyr⟩
      rw [(first_payback_shape hf).1] at hyr
      exact hr (hyr ▸ seed_research_mem hy)

/-! ### Concrete objects used by witnesses and counterexamples -/

/-- A double-kind track with the exact price 100 recorded at level 0,
discount 0, and no completion ceiling (the spec's worked example). -/
def elemD : Elem := ⟨.double, 0, none, [(0, [(0, ⟨0, 100, ⟨"", 0⟩, 0⟩)])]⟩

/-- A fixed-percent track (percent 10) with price 50 at level 0,
discount 0 (the spec's worked example). -/
def elemF : Elem := ⟨.fixed_percent, 10, none, [(0, [(0, ⟨0, 50, ⟨"", 0⟩, 0⟩)])]⟩

/-- Player progress on the two example tracks. -/
def rD : Research := ⟨"d", 0, elemD⟩

def rF : Research := ⟨"f", 0, elemF⟩

/-- A completed track: `last_level = 0`, so its forward sequence is
always empty. -/
def elemDone : Elem := ⟨.double, 0, some 0, []⟩

def rA : Research := ⟨"a", 0, elemDone⟩

def rB : Research := ⟨"b", 0, elemDone⟩

/-- A working-set entry whose payback is unknown. -/
def pvA : PaybackValue := ⟨rA, 1, false, none, 0⟩

/-- A working-set entry with strictly positive payback. -/
def pvB : PaybackValue := ⟨rB, 1, false, some 5, 0⟩

/-! ### Claims about the scheduler -/

/-- C1: pulling `n` entries from the merged stream yields pairwise
distinct `(research, level)` pairs, with each research's levels strictly
increasing in yield order; every yielded entry is the head (a
minimum-key element) of the sorted working set at that step; and each
step removes the popped entry and reinserts that research's next-level
entry (`startLevel = emitted level + 1`) exactly when it exists, so a
research with a computable next entry is never dropped. -/
theorem claim_C1 (researches : List Research) (d n : ℕ)
    (hnd : researches.Nodup) :
    (((get_next_payback_values researches d n).map fun v => (v.research, v.level)).Nodup
      ∧ (get_next_payback_values researches d n).Pairwise
          (fun x y => x.research = y.research → x.level < y.level))
    ∧ get_next_payback_values researches d n
        = (List.range n).filterMap
            (fun k => ((sched_step d)^[k] (sortPB (seed_values researches d))).head?)
    ∧ (∀ k v, ((sched_step d)^[k] (sortPB (seed_values researches d))).head? = some v →
        ∀ w ∈ (sched_step d)^[k] (sortPB (seed_values researches d)), pkey v ≤ pkey w)
    ∧ (∀ k v t, (sched_step d)^[k] (sortPB (seed_values researches d)) = v :: t →
        ((sched_step d)^[k + 1] (sortPB (seed_values researches d))).Perm
          (t ++ (first_payback v.research d (v.level + 1)).toList)) := by
  have hnod : wsNodup (sortPB (seed_values researches d)) := by
    have hseed := seed_nodup (d := d) hnd
    unfold wsNodup at hseed ⊢
    exact (((sortPB_perm (seed_values researches d)).map fun v => v.research).nodup_iff).mpr hseed
  have hsort := sortPB_sorted (seed_values researches d)
  have hpw := sched_out_pairwise (d := d) (n := n) hnod
  refine ⟨⟨?_, ?_⟩, ?_, ?_, ?_⟩
  · unfold get_next_payback_values
    rw [List.Nodup, List.pairwise_map]
    refine hpw.imp ?_
    intro a b h heq
    rw [Prod.mk.injEq] at heq
    exact absurd heq.2 (Nat.ne_of_lt (h heq.1))
  · exact hpw
  · exact sched_out_closed_form d n _
  · intro k v hv w hw
    have hsk := iterate_sched_step_sorted (d := d) hsort k
    rcases hlist : (sched_step d)^[k] (sortPB (seed_values researches d)) with _ | ⟨x, t⟩
    · rw [hlist] at hv
      simp at hv
    · rw [hlist] at hv hw
      simp only [List.head?_cons, Option.some.injEq] at hv
      rw [hlist] at hsk
      subst hv
      rcases List.mem_cons.mp hw with rfl | hwt
      · exact le_rfl
      · exact (List.sorted_cons.mp hsk).1 w hwt
  · intro k v t hk
    rw [Function.iterate_succ_apply', hk, sched_step_cons]
    rcases hf : first_payback v.research d (v.level + 1) with _ | nv
    · simp
    · simp only [Option.toList_some]
      exact sortPB_perm (t ++ [nv])

/-- Witness for C1 at the two-track example database. -/
theorem claim_C1_witness :
    ((get_next_payback_values [rF, rD] 0 3).map fun v => (v.research, v.level)).Nodup :=
  (claim_C1 [rF, rD] 0 3 (by decide)).1.1

/-- C5: an entry with unknown payback sorts with key 0, so for every
working set containing an unknown-payback entry and an entry with
strictly positive payback, the merge emits the former strictly before
the latter. -/
theorem claim_C5 (ws : List PaybackValue) (d n : ℕ) (a b : PaybackValue)
    (ha : a ∈ ws) (hb : b ∈ ws) (han : a.payback_value = none)
    (p : ℚ) (hbp : b.payback_value = some p) (hp : 0 < p) (j : ℕ)
    (hj : (sched_out d n (sortPB ws))[j]? = some b) :
    ∃ i, i < j ∧ (sched_out d n (sortPB ws))[i]? = some a := by
  have hab : pkey a < pkey b := by
    unfold pkey
    rw [han, hbp]
    simpa using hp
  exact sched_out_emits_before hab (sortPB_sorted ws) (mem_sortPB.mpr ha)
    (mem_sortPB.mpr hb) hj

unseal Rat.mul Rat.inv Rat.add Rat.sub Rat.ofScientific in
/-- Witness for C5: a two-entry working set with an unknown payback and
payback 5; the unknown entry comes out strictly first. -/
theorem claim_C5_witness :
    ∃ i, i < 1 ∧ (sched_out 0 2 (sortPB [pvB, pvA]))[i]? = some pvA :=
  claim_C5 [pvB, pvA] 0 2 pvA pvB (by decide) (by decide) rfl 5 rfl
    (by decide) 1 (by decide)

/-! ### Claims about the database operations -/

/-- C7: recording a price at an already-populated `(level, discount)`
pair always fails with the duplicate-observation error and leaves the
price table unchanged. -/
theorem claim_C7 (e : Elem) (level d : ℕ) (price : ℚ) (us : String)
    (ds : List (ℕ × Price)) (h1 : List.lookup level e.prices = some ds)
    (h2 : (List.lookup d ds).isSome) :
    e.add_cost level d price us = (some AddCostError.duplicateObservation, e) := by
  unfold Elem.add_cost
  rw [h1]
  simp [h2]

unseal Rat.mul Rat.inv Rat.add Rat.sub Rat.ofScientific in
/-- Witness for C7: re-recording the (0, 0) observation of the example
track fails and keeps the table intact. -/
theorem claim_C7_witness :
    elemD.add_cost 0 0 7 "M" = (some AddCostError.duplicateObservation, elemD) :=
  claim_C7 elemD 0 0 7 "M" [(0, ⟨0, 100, ⟨"", 0⟩, 0⟩)] (by decide) (by decide)

/-- C6: once `mark_completed level` has set `last_level = level`, the
needs-update query never flags the research again (its current level
only ever grows, and `increase_level` preserves that), and its forward
payback sequence yields no entry at any level ≥ `level`, from any
starting point and for any fuel. -/
theorem claim_C6 :
    (∀ (e : Elem) (ll : ℕ) (name : String) (clvl d : ℕ), ll ≤ clvl →
      needs_update_entry ⟨name, clvl, e.mark_completed ll⟩ d = none)
    ∧ (∀ (e : Elem) (ll : ℕ) (name : String) (clvl d start fuel : ℕ),
        ∀ v ∈ Research.get_payback_values ⟨name, clvl, e.mark_completed ll⟩ d start fuel,
          v.level < ll)
    ∧ (∀ (r : Research) (ll : ℕ), ll ≤ r.level → ll ≤ r.increase_level.level) := by
  refine ⟨?_, ?_, ?_⟩
  · intro e ll name clvl d hle
    have hceil : atCeiling (e.mark_completed ll) clvl = true := by
      simp [atCeiling, Elem.mark_completed, hle]
    unfold needs_update_entry
    simp only [Elem.get_price_information, hceil, if_true]
    simp [Elem.mark_completed, Nat.not_lt.mpr hle]
  · intro e ll name clvl d start fuel
    induction fuel generalizing start with
    | zero => intro v hv; simp [Research.get_payback_values] at hv
    | succ fuel ih =>
      intro v hv
      rw [Research.get_payback_values] at hv
      by_cases hc : atCeiling (e.mark_completed ll) start
      · rw [if_pos hc] at hv
        simp at hv
      · rw [if_neg hc] at hv
        have hlt : start < ll := by
          simp [atCeiling, Elem.mark_completed] at hc
          omega
        rcases hm : (e.mark_completed ll).get_price_info_with_payback start d with ⟨p, pb, est⟩
        rw [hm] at hv
        match p with
        | none => simp at hv
        | some c =>
          rcases List.mem_cons.mp hv with rfl | hv2
          · exact hlt
          · exact ih (start + 1) v hv2
  · intro r ll h
    simp only [Research.increase_level]
    omega

/-- Witness for C6: marking the example double track complete at level 0
silences the needs-update query at level 0. -/
theorem claim_C6_witness :
    needs_update_entry ⟨"d", 0, elemD.mark_completed 0⟩ 0 = none :=
  claim_C6.1 elemD 0 "d" 0 0 (le_refl 0)

unseal Rat.mul Rat.inv Rat.add Rat.sub Rat.ofScientific in
/-- C2: the payback is computed from the progression kind exactly as the
spec's formula table states (`double → 2 × price`, `triple → 3 × price`,
`fixed-percent → price × m/(m − 1)` with the level-scaled `m`), and the
spec's worked example holds: the double track at `(0, 0)` gives
`(100, 200, not-an-estimate)`, the percent-10 track gives payback 550,
and ranking the two by payback ascending puts the double track first. -/
theorem claim_C2 :
    (∀ (e : Elem) (level d : ℕ) (p : ℚ) (est : Bool),
        e.get_price_information level d = (some p, est) →
        e.increase_type = .double →
        e.get_price_info_with_payback level d
          = (some p, some (payback_formula .double e.increase_percent p level), est))
    ∧ (∀ (e : Elem) (level d : ℕ) (p : ℚ) (est : Bool),
        e.get_price_information level d = (some p, est) →
        e.increase_type = .triple →
        e.get_price_info_with_payback level d
          = (some p, some (payback_formula .triple e.increase_percent p level), est))
    ∧ (∀ (e : Elem) (level d : ℕ) (p : ℚ) (est : Bool),
        e.get_price_information level d = (some p, est) →
        e.increase_type = .fixed_percent →
        1 + e.increase_percent * level / 100 ≠ 0 →
        (1 + e.increase_percent / 100 + e.increase_percent * level / 100)
            / (1 + e.increase_percent * level / 100) ≠ 1 →
        e.get_price_info_with_payback level d
          = (some p, some (payback_formula .fixed_percent e.increase_percent p level), est))
    ∧ elemD.get_price_info_with_payback 0 0 = (some 100, some 200, false)
    ∧ elemF.get_price_info_with_payback 0 0 = (some 50, some 550, false)
    ∧ (get_next_payback_values [rF, rD] 0 2).map (fun v => (v.research.name, v.payback_value))
        = [("d", some 200), ("f", some 550)] := by
  refine ⟨?_, ?_, ?_, ?_, ?_, ?_⟩
  · intro e level d p est hinfo htype
    simp only [Elem.get_price_info_with_payback, hinfo, htype]
    simp [payback_formula, mul_comm]
  · intro e level d p est hinfo htype
    simp only [Elem.get_price_info_with_payback, hinfo, htype]
    simp [payback_formula, mul_comm]
  · intro e level d p est hinfo htype hden hm1
    simp only [Elem.get_price_info_with_payback, hinfo, htype]
    rw [if_neg hden, if_neg fun hc => hm1 (sub_eq_zero.mp hc)]
    simp [payback_formula]
  · decide
  · decide
  · decide

unseal Rat.mul Rat.inv Rat.add Rat.sub Rat.ofScientific in
/-- Witness for C2 at the fixed-percent example track: its payback at
level 0 is exactly the spec formula's value. -/
theorem claim_C2_witness :
    elemF.get_price_info_with_payback 0 0
      = (some 50, some (payback_formula .fixed_percent elemF.increase_percent 50 0), false) :=
  claim_C2.2.2.1 elemF 0 0 50 false (by decide) rfl (by decide) (by decide)

/-! ### Claims about display scaling -/

theorem rhe_intCast (k : ℤ) : rhe (k : ℚ) = k := by
  unfold rhe
  simp

theorem quantize_exact (k : ℤ) (q : ℚ) (hq : q ≠ 0) :
    quantize ((k : ℚ) * q) q = (k : ℚ) * q := by
  unfold quantize
  rw [mul_div_cancel_right₀ _ hq, rhe_intCast]

theorem quantize_idem (y q : ℚ) (hq : q ≠ 0) :
    quantize (quantize y q) q = quantize y q := by
  unfold quantize
  rw [mul_div_cancel_right₀ _ hq, rhe_intCast]

theorem get_unit_exp {e : ℤ} {u : MoneyUnit}
    (h : get_unit_for_exponent e = some u) : u.exp = e := by
  unfold get_unit_for_exponent at h
  simpa using List.find?_some h

unseal Rat.mul Rat.inv Rat.add Rat.sub Rat.ofScientific in
/-- C8 counterexample: at `x = 99999999.6` the quantization carries the
value across the `10^7 → 10^8` display boundary, so re-applying
`factor_price` to the reconstruction yields `(100, "M")`, not the
original `(100000000, "")` pair — the round trip is not stable. -/
theorem claim_C8_counterexample :
    factor_price (499999998 / 5) = some (100000000, ⟨"", 0⟩)
    ∧ factor_price ((100000000 : ℚ) * MoneyUnit.multiplier ⟨"", 0⟩)
        ≠ some (100000000, ⟨"", 0⟩) := by
  constructor
  · decide
  · decide

/-- C8 (amended): the round trip is stable for every nonnegative `x`
whose quantization does not change the order of magnitude — whenever the
reconstruction `m × u.multiplier` has the same adjusted exponent as `x`,
re-applying `factor_price` returns the identical (mantissa, unit) pair. -/
theorem claim_C8 (x m : ℚ) (u : MoneyUnit) (_hx : 0 ≤ x)
    (hfp : factor_price x = some (m, u))
    (hadj : adjusted (m * u.multiplier) = adjusted x) :
    factor_price (m * u.multiplier) = some (m, u) := by
  unfold factor_price at hfp ⊢
  rw [hadj]
  by_cases h1 : adjusted x ≤ 1
  · rw [if_pos h1] at hfp ⊢
    have h0 : get_unit_for_exponent 0 = some ⟨"", 0⟩ := rfl
    rw [h0] at hfp ⊢
    simp only [Option.map_some', Option.some.injEq, Prod.mk.injEq] at hfp
    rcases hfp with ⟨hm, hu⟩
    subst hu
    have hmul : MoneyUnit.multiplier ⟨"", 0⟩ = 1 := by
      simp [MoneyUnit.multiplier]
    rw [hmul, mul_one, ← hm]
    rw [quantize_idem x (1 / 100) (by norm_num)]
    rfl
  · rw [if_neg h1] at hfp ⊢
    by_cases h7 : adjusted x ≤ 7
    · rw [if_pos h7] at hfp ⊢
      have h0 : get_unit_for_exponent 0 = some ⟨"", 0⟩ := rfl
      rw [h0] at hfp ⊢
      simp only [Option.map_some', Option.some.injEq, Prod.mk.injEq] at hfp
      rcases hfp with ⟨hm, hu⟩
      subst hu
      have hmul : MoneyUnit.multiplier ⟨"", 0⟩ = 1 := by
        simp [MoneyUnit.multiplier]
      rw [hmul, mul_one, ← hm]
      rw [quantize_idem x 1 (by norm_num)]
      rfl
    · rw [if_neg h7] at hfp ⊢
      rcases hu0 : get_unit_for_exponent (adjusted x - adjusted x % 3) with _ | u0
      · rw [hu0] at hfp
        simp at hfp
      · rw [hu0] at hfp
        simp only [Option.map_some', Option.some.injEq, Prod.mk.injEq] at hfp
        rcases hfp with ⟨hm, hu⟩
        subst hu
        have hexp : u0.exp = adjusted x - adjusted x % 3 := get_unit_exp hu0
        have hmul : m * u0.multiplier * (10 : ℚ) ^ (-(adjusted x - adjusted x % 3)) = m := by
          rw [MoneyUnit.multiplier, hexp, mul_assoc, ← zpow_add₀ (by norm_num : (10 : ℚ) ≠ 0)]
          simp
        rw [hmul, ← hm, quantize_idem _ (1 / 1000) (by norm_num)]
        rfl

unseal Rat.mul Rat.inv Rat.add Rat.sub Rat.ofScientific in
/-- Witness for the amended C8 at `x = 123.456`: quantization stays
inside the same magnitude and the round trip is exactly stable. -/
theorem claim_C8_witness :
    factor_price ((123 : ℚ) * MoneyUnit.multiplier ⟨"", 0⟩) = some (123, ⟨"", 0⟩) :=
  claim_C8 (123456 / 1000) 123 ⟨"", 0⟩ (by decide) (by decide) (by decide)

/-! ### Claims about cross-discount renormalization -/

/-- An observation whose absolute value 1.005 does not survive the
display quantizer unchanged (`1.005 → 1.00` at two fractional digits). -/
def p1005 : Price := ⟨0, 201 / 200, ⟨"", 0⟩, 0⟩

/-- A track holding only `p1005` at `(level 0, discount 0)`, completed at
level 5. -/
def elemC4 : Elem := ⟨.double, 0, some 5, [(0, [(0, p1005)])]⟩

/-- Shared: for a genuine renormalization (target discount differs from
the observed one, observed discount not 100), `Price.get_price` computes
exactly the quantized-base formula. -/
theorem get_price_eq_quantized_renorm (p : Price) (d : ℕ)
    (hd : d ≠ p.discount_level) (h100 : p.discount_level ≠ 100) :
    p.get_price (some d) = quantized_base_renorm p d := by
  have hden : (1 - (p.discount_level : ℚ) / 100) ≠ 0 := by
    intro hc
    apply h100
    have : (p.discount_level : ℚ) = 100 := by linarith [hc]
    exact_mod_cast this
  simp only [Price.get_price, quantized_base_renorm, if_neg hd, if_neg hden]

unseal Rat.mul Rat.inv Rat.add Rat.sub Rat.ofScientific in
/-- C10: a cross-discount estimate always equals the quantized-base
formula (the base price round-trips through `factor_price` before the
target discount is applied), and at the concrete observation 1.005
rescaled from discount 0 to discount 50 it differs from the exact
formula `price/(1 − d0/100) × (1 − d/100)`: the code yields 0.5 while
the exact value is 0.5025. -/
theorem claim_C10 :
    (∀ (p : Price) (d : ℕ), d ≠ p.discount_level → p.discount_level ≠ 100 →
        p.get_price (some d) = quantized_base_renorm p d)
    ∧ p1005.get_price (some 50) = some (1 / 2)
    ∧ exact_renorm p1005 50 = 201 / 400
    ∧ p1005.get_price (some 50) ≠ some (exact_renorm p1005 50) := by
  refine ⟨get_price_eq_quantized_renorm, ?_, ?_, ?_⟩
  · decide
  · decide
  · decide

unseal Rat.mul Rat.inv Rat.add Rat.sub Rat.ofScientific in
/-- Witness for C10 at the concrete observation. -/
theorem claim_C10_witness :
    p1005.get_price (some 50) = quantized_base_renorm p1005 50 :=
  claim_C10.1 p1005 50 (by decide) (by decide)

theorem atCeiling_false {e : Elem} {L lvl : ℕ}
    (h1 : e.last_level = some L) (h2 : lvl < L) : atCeiling e lvl = false := by
  unfold atCeiling
  rw [h1]
  simpa using Nat.not_le.mpr h2

/-- C4 (amended): for a level strictly below `last_level` with recorded
discounts but no exact entry at the requested discount, the result is the
discount-0 entry's *quantized-base* renormalization when a discount-0
entry exists, otherwise the mean of the quantized-base renormalizations
of all recorded discounts, in both cases flagged as an estimate; an
exact hit returns the recorded value unflagged. -/
theorem claim_C4 :
    (∀ (e : Elem) (lvl d L : ℕ) (ds : List (ℕ × Price)) (p : Price),
        e.last_level = some L → lvl < L →
        List.lookup lvl e.prices = some ds →
        List.lookup d ds = some p →
        e.get_price_information lvl d = (some p.absolute, false))
    ∧ (∀ (e : Elem) (lvl d L : ℕ) (ds : List (ℕ × Price)) (zp : Price),
        e.last_level = some L → lvl < L →
        List.lookup lvl e.prices = some ds →
        List.lookup d ds = none →
        List.lookup 0 ds = some zp →
        zp.discount_level ≠ d → zp.discount_level ≠ 100 →
        e.get_price_information lvl d = (quantized_base_renorm zp d, true))
    ∧ (∀ (e : Elem) (lvl d L : ℕ) (ds : List (ℕ × Price)),
        e.last_level = some L → lvl < L →
        List.lookup lvl e.prices = some ds →
        List.lookup d ds = none →
        List.lookup 0 ds = none →
        (∀ kp ∈ ds, kp.2.discount_level ≠ d ∧ kp.2.discount_level ≠ 100) →
        e.get_price_information lvl d
          = (meanOpt (ds.map fun kp => quantized_base_renorm kp.2 d), true)) := by
  refine ⟨?_, ?_, ?_⟩
  · intro e lvl d L ds p hL hlt hds hp
    simp only [Elem.get_price_information, atCeiling_false hL hlt, hds, hp]
    simp [Price.get_price]
  · intro e lvl d L ds zp hL hlt hds hd h0 hzd hz100
    simp only [Elem.get_price_information, atCeiling_false hL hlt, hds, hd, h0]
    simp [get_price_eq_quantized_renorm zp d (fun hc => hzd hc.symm) hz100]
  · intro e lvl d L ds hL hlt hds hd h0 hall
    simp only [Elem.get_price_information, atCeiling_false hL hlt, hds, hd, h0]
    have hmap : (ds.map fun kp => kp.2.get_price (some d))
        = ds.map fun kp => quantized_base_renorm kp.2 d := by
      refine List.map_congr_left ?_
      intro kp hkp
      exact get_price_eq_quantized_renorm kp.2 d
        (fun hc => (hall kp hkp).1 hc.symm) (hall kp hkp).2
    rw [hmap]
    simp

unseal Rat.mul Rat.inv Rat.add Rat.sub Rat.ofScientific in
/-- C4 counterexample: the claim's exact (unquantized) renormalization
formula predicts 0.5025 at the concrete track, but the code returns 0.5:
the base price is quantized before the target discount is applied. -/
theorem claim_C4_counterexample :
    elemC4.get_price_information 0 50 = (some (1 / 2), true)
    ∧ elemC4.get_price_information 0 50 ≠ (some (exact_renorm p1005 50), true) := by
  constructor
  · decide
  · decide

unseal Rat.mul Rat.inv Rat.add Rat.sub Rat.ofScientific in
/-- Witness for the amended C4: the discount-0 branch at the concrete
track yields exactly the quantized-base renormalization, flagged as an
estimate. -/
theorem claim_C4_witness :
    elemC4.get_price_information 0 50 = (quantized_base_renorm p1005 50, true) :=
  claim_C4.2.1 elemC4 0 50 5 [(0, p1005)] p1005 rfl (by decide) (by decide)
    (by decide) (by decide) (by decide) (by decide)

/-! ### Claims about state loading -/

theorem load_saved_error :
    ∀ (saved : List (String × ℕ)) (db : List (String × Elem)) (k : String) (v : ℕ),
      (k, v) ∈ saved → List.lookup k db = none →
      ∃ msg, load_saved_researches saved db = .error msg := by
  intro saved
  induction saved with
  | nil => intro db k v h _; simp at h
  | cons kv rest ih =>
    intro db k v hmem hnone
    rcases kv with ⟨k1, v1⟩
    rw [load_saved_researches]
    rcases hl : List.lookup k1 db with _ | e1
    · exact ⟨k1, rfl⟩
    · rcases List.mem_cons.mp hmem with heq | hrest
      · exfalso
        rw [Prod.mk.injEq] at heq
        rw [heq.1] at hnone
        rw [hnone] at hl
        exact Option.noConfusion hl
      · rcases ih db k v hrest hnone with ⟨msg, hmsg⟩
        rw [hmsg]
        exact ⟨msg, rfl⟩

theorem load_saved_names :
    ∀ (saved : List (String × ℕ)) (db : List (String × Elem)) (rs : List Research),
      load_saved_researches saved db = .ok rs →
      ∀ r ∈ rs, r.name ∈ saved.map Prod.fst := by
  intro saved
  induction saved with
  | nil =>
    intro db rs hok r hr
    rw [load_saved_researches] at hok
    simp only [Except.ok.injEq] at hok
    rw [← hok] at hr
    simp at hr
  | cons kv rest ih =>
    intro db rs hok r hr
    rcases kv with ⟨k1, v1⟩
    rw [load_saved_researches] at hok
    rcases hl : List.lookup k1 db with _ | e1
    · rw [hl] at hok
      exact Except.noConfusion hok
    · rw [hl] at hok
      rcases hrest : load_saved_researches rest db with msg | rs1
      · rw [hrest] at hok
        exact Except.noConfusion hok
      · rw [hrest] at hok
        simp only [Except.map, Except.ok.injEq] at hok
        rw [← hok] at hr
        rcases List.mem_cons.mp hr with rfl | hr1
        · simp [research_init]
        · simp only [List.map_cons, List.mem_cons]
          exact Or.inr (ih db rs1 hrest r hr1)

theorem add_new_subset :
    ∀ (db : List (String × Elem)) (rs : List Research),
      rs ⊆ add_new_researches db rs := by
  intro db
  induction db with
  | nil => intro rs; rw [add_new_researches]; exact fun x h => h
  | cons ke rest ih =>
    intro rs
    rcases ke with ⟨k1, e1⟩
    rw [add_new_researches]
    by_cases hmem : k1 ∈ rs.map Research.name
    · rw [if_pos hmem]
      exact ih rs
    · rw [if_neg hmem]
      intro x hx
      exact ih (rs ++ [research_init k1 none e1]) (List.mem_append_left _ hx)

theorem add_new_adds :
    ∀ (db : List (String × Elem)) (rs : List Research) (k : String) (e : Elem),
      (k, e) ∈ db → (∀ r ∈ rs, r.name = k → r.level = 0) →
      ∃ r ∈ add_new_researches db rs, r.name = k ∧ r.level = 0 := by
  intro db
  induction db with
  | nil => intro rs k e h _; simp at h
  | cons ke rest ih =>
    intro rs k e hmem hinv
    rcases ke with ⟨k1, e1⟩
    rw [add_new_researches]
    by_cases hin : k1 ∈ rs.map Research.name
    · rw [if_pos hin]
      rcases List.mem_cons.mp hmem with heq | hrest
      · rw [Prod.mk.injEq] at heq
        rcases List.mem_map.mp hin with ⟨r0, hr0, hr0n⟩
        refine ⟨r0, add_new_subset rest rs hr0, ?_, ?_⟩
        · rw [hr0n, heq.1]
        · exact hinv r0 hr0 (by rw [hr0n, heq.1])
      · exact ih rs k e hrest hinv
    · rw [if_neg hin]
      have hinv2 : ∀ r ∈ rs ++ [research_init k1 none e1], r.name = k → r.level = 0 := by
        intro r hr hname
        rcases List.mem_append.mp hr with h1 | h2
        · exact hinv r h1 hname
        · rw [List.mem_singleton.mp h2]
          rfl
      rcases List.mem_cons.mp hmem with heq | hrest
      · rw [Prod.mk.injEq] at heq
        refine ⟨research_init k1 none e1,
          add_new_subset rest _ (List.mem_append_right _ (List.mem_singleton_self _)), ?_, rfl⟩
        rw [← heq.1]
        rfl
      · exact ih _ k e hrest hinv2

unseal Rat.mul Rat.inv Rat.add Rat.sub Rat.ofScientific in
/-- C9 counterexample: loading an empty save against a database holding
one `double`-kind track starts that research at level 0 (the claim says
multiplicative kinds start at 1), and a saved research whose name is
absent from the database makes the load fail with a `KeyError` instead
of being silently dropped. -/
theorem claim_C9_counterexample :
    state_init_researches [] [("a", elemD)] = .ok [research_init "a" none elemD]
    ∧ (research_init "a" none elemD).level = 0
    ∧ elemD.increase_type = IncreaseType.double
    ∧ state_init_researches [("b", 3)] [("a", elemD)] = .error "b" := by
  exact ⟨rfl, rfl, rfl, rfl⟩

/-- C9 (amended): on load, every database entry with no saved level
starts at level 0 regardless of progression kind, and a saved research
whose name is absent from the database makes the load fail with an
error naming a missing research — it is not silently dropped. -/
theorem claim_C9 :
    (∀ (db : List (String × Elem)) (saved : List (String × ℕ)) (rs : List Research)
        (k : String) (e : Elem),
        state_init_researches saved db = .ok rs →
        (k, e) ∈ db → k ∉ saved.map Prod.fst →
        ∃ r ∈ rs, r.name = k ∧ r.level = 0)
    ∧ (∀ (saved : List (String × ℕ)) (db : List (String × Elem)) (k : String) (v : ℕ),
        (k, v) ∈ saved → List.lookup k db = none →
        ∃ msg, state_init_researches saved db = .error msg) := by
  constructor
  · intro db saved rs k e hok hdb hns
    unfold state_init_researches at hok
    rcases hload : load_saved_researches saved db with msg | rs1
    · rw [hload] at hok
      exact Except.noConfusion hok
    · rw [hload] at hok
      simp only [Except.map, Except.ok.injEq] at hok
      rw [← hok]
      refine add_new_adds db rs1 k e hdb ?_
      intro r hr hname
      exfalso
      exact hns (hname ▸ load_saved_names saved db rs1 hload r hr)
  · intro saved db k v hmem hnone
    rcases load_saved_error saved db k v hmem hnone with ⟨msg, hmsg⟩
    refine ⟨msg, ?_⟩
    unfold state_init_researches
    rw [hmsg]
    rfl

/-- Witness for the amended C9: the single new double-kind entry loads
at level 0. -/
theorem claim_C9_witness :
    ∃ r ∈ [research_init "a" none elemD], r.name = "a" ∧ r.level = 0 :=
  claim_C9.1 [("a", elemD)] [] [research_init "a" none elemD] "a" elemD
    rfl (by decide) (by decide)

/-! ### Claims about the missing-level estimator -/

/-- The concrete track falsifying C3's scan direction: seven levels with
single discount-0 observations, growth ratio 2 between levels 1 and 2
and ratio 3 everywhere above. -/
def mkP (lv : ℕ) (v : ℚ) : ℕ × List (ℕ × Price) :=
  (lv, [(0, ⟨lv, v, ⟨"", 0⟩, 0⟩)])

def elemC3 : Elem :=
  ⟨.double, 0, none, [mkP 1 1, mkP 2 2, mkP 3 6, mkP 4 18, mkP 5 54, mkP 6 162, mkP 7 486]⟩

theorem flatMap_eq_map_of_mem {α β : Type} {l : List α} {g : α → List β} {h : α → β}
    (hgh : ∀ a ∈ l, g a = [h a]) : l.flatMap g = l.map h := by
  induction l with
  | nil => rfl
  | cons x xs ih =>
    rw [List.flatMap_cons, List.map_cons, hgh x (List.mem_cons_self x xs),
      ih fun a ha => hgh a (List.mem_cons_of_mem x ha)]
    rfl

theorem mem_keys_lookup {β : Type} {l : List (ℕ × β)} {L : ℕ}
    (h : L ∈ l.map Prod.fst) : ∃ b, List.lookup L l = some b ∧ (L, b) ∈ l := by
  induction l with
  | nil => simp at h
  | cons kv rest ih =>
    rcases kv with ⟨k, v⟩
    by_cases hLk : L = k
    · refine ⟨v, ?_, ?_⟩
      · simp [List.lookup, hLk]
      · rw [hLk]
        exact List.mem_cons_self _ _
    · have hrest : L ∈ rest.map Prod.fst := by
        simp only [List.map_cons, List.mem_cons] at h
        rcases h with h1 | h2
        · exact absurd h1 hLk
        · exact h2
      rcases ih hrest with ⟨b, hb1, hb2⟩
      refine ⟨b, ?_, List.mem_cons_of_mem _ hb2⟩
      have hbeq : (L == k) = false := beq_eq_false_iff_ne.mpr hLk
      simp [List.lookup, hbeq, hb1]

theorem foldl_max_spec :
    ∀ (ks : List ℕ) (k : ℕ),
      ks.foldl Nat.max k ∈ k :: ks ∧ ∀ K ∈ k :: ks, K ≤ ks.foldl Nat.max k := by
  intro ks
  induction ks with
  | nil => intro k; simp
  | cons a rest ih =>
    intro k
    rw [List.foldl_cons]
    rcases ih (Nat.max k a) with ⟨hmem, hub⟩
    constructor
    · rcases List.mem_cons.mp hmem with hh | ht
      · rw [hh]
        have hor : Nat.max k a = a ∨ Nat.max k a = k := by
          rcases Nat.le_total k a with h | h
          · exact Or.inl (Nat.max_eq_right h)
          · exact Or.inr (Nat.max_eq_left h)
        rcases hor with hc | hc
        · rw [hc]
          exact List.mem_cons_of_mem _ (List.mem_cons_self _ _)
        · rw [hc]
          exact List.mem_cons_self _ _
      · exact List.mem_cons_of_mem _ (List.mem_cons_of_mem _ ht)
    · intro K hK
      rcases List.mem_cons.mp hK with rfl | hK2
      · exact le_trans (Nat.le_max_left K a) (hub _ (List.mem_cons_self _ _))
      · rcases List.mem_cons.mp hK2 with rfl | hK3
        · exact le_trans (Nat.le_max_right k K) (hub _ (List.mem_cons_self _ _))
        · exact hub K (List.mem_cons_of_mem _ hK3)

theorem maxNat_spec {l : List ℕ} (h : l ≠ []) :
    ∃ M, maxNat l = some M ∧ M ∈ l ∧ ∀ K ∈ l, K ≤ M := by
  match l with
  | [] => exact absurd rfl h
  | k :: ks =>
    rcases foldl_max_spec ks k with ⟨hmem, hub⟩
    exact ⟨ks.foldl Nat.max k, rfl, hmem, hub⟩

theorem chain_lt_nodup {l : List ℕ} (h : List.Chain' (fun a b => a < b) l) :
    l.Nodup :=
  (List.chain'_iff_pairwise.mp h).imp fun hab => Nat.ne_of_lt hab

instance closer_total (level : ℕ) : IsTotal ℕ (closer level) := by
  constructor
  intro a b
  unfold closer
  rcases lt_trichotomy (ldist level a) (ldist level b) with h | h | h
  · exact Or.inl (Or.inl h)
  · rcases Nat.le_total a b with hab | hab
    · exact Or.inl (Or.inr ⟨h, hab⟩)
    · exact Or.inr (Or.inr ⟨h.symm, hab⟩)
  · exact Or.inr (Or.inl h)

instance closer_trans (level : ℕ) : IsTrans ℕ (closer level) := by
  constructor
  intro a b c hab hbc
  unfold closer at hab hbc ⊢
  rcases hab with h1 | ⟨h1, h1b⟩ <;> rcases hbc with h2 | ⟨h2, h2b⟩
  · exact Or.inl (lt_trans h1 h2)
  · exact Or.inl (h2 ▸ h1)
  · exact Or.inl (h1 ▸ h2)
  · exact Or.inr ⟨h1.trans h2, le_trans h1b h2b⟩

instance closer_antisymm (level : ℕ) : IsAntisymm ℕ (closer level) := by
  constructor
  intro a b hab hba
  unfold closer at hab hba
  rcases hab with h1 | ⟨h1, h1b⟩ <;> rcases hba with h2 | ⟨h2, h2b⟩
  · exact absurd (lt_trans h1 h2) (lt_irrefl _)
  · exact absurd h1 (h2 ▸ lt_irrefl _)
  · exact absurd h2 (h1 ▸ lt_irrefl _)
  · exact le_antisymm h1b h2b

theorem atCeiling_none {e : Elem} (h : e.last_level = none) (lvl : ℕ) :
    atCeiling e lvl = false := by
  unfold atCeiling
  rw [h]

theorem spec_closest_eq_reverse {e : Elem} {level : ℕ}
    (hchain : List.Chain' (fun a b => a < b) (e.prices.map Prod.fst))
    (hmax : ∀ K ∈ e.prices.map Prod.fst, K < level) :
    spec_closest e level = (e.prices.map Prod.fst).reverse := by
  unfold spec_closest
  rw [List.dedup_eq_self.mpr (chain_lt_nodup hchain)]
  refine List.eq_of_perm_of_sorted
    ((List.perm_insertionSort _ _).trans (List.reverse_perm _).symm)
    (List.sorted_insertionSort _ _) ?_
  rw [List.Sorted, List.pairwise_reverse]
  refine (List.chain'_iff_pairwise.mp hchain).imp_of_mem ?_
  intro a b ha hb hab
  have hal := hmax a ha
  have hbl := hmax b hb
  unfold closer ldist
  left
  omega

theorem est_pairs_some {e : Elem} {t : ℕ} (h : est_top e = some t) :
    est_pairs e = (((List.range (t - 1)).map fun k => (k, k + 1)).reverse).filter
      (fun ab => (List.lookup ab.1 e.prices).isSome && (List.lookup ab.2 e.prices).isSome) := by
  unfold est_pairs
  rw [h]

theorem spec_pairs_some {e : Elem} {t level : ℕ} (h : est_top e = some t) :
    spec_pairs e level =
      (if ldist level 0 ≤ ldist level (t - 1)
        then (List.range (t - 1)).map fun k => (k, k + 1)
        else ((List.range (t - 1)).map fun k => (k, k + 1)).reverse).filter
        (fun ab => (List.lookup ab.1 e.prices).isSome && (List.lookup ab.2 e.prices).isSome) := by
  unfold spec_pairs
  rw [h]

theorem claim_C3 (e : Elem) (level d : ℕ)
    (hll : e.last_level = none)
    (hchain : List.Chain' (fun a b => a < b) (e.prices.map Prod.fst))
    (hdisc : ∀ kp ∈ e.prices, ∃ p, List.lookup d kp.2 = some p ∧ p.discount_level = d)
    (hmax : ∀ K ∈ e.prices.map Prod.fst, K < level)
    (hpos : ∃ K ∈ e.prices.map Prod.fst, 0 < K) :
    e.get_new_price_estimate level d = spec_estimate e level d := by
  obtain ⟨K0, hK0, hK0p⟩ := hpos
  obtain ⟨M, hM, hMmem, hMub⟩ := maxNat_spec (List.ne_nil_of_mem hK0)
  have hM0 : 0 < M := lt_of_lt_of_le hK0p (hMub K0 hK0)
  have hMlv : M < level := hmax M hMmem
  have htop : est_top e = some (M + 1) := by
    unfold est_top
    rw [hll, hM]
  have hpairs : spec_pairs e level = est_pairs e := by
    have hcond : ¬ (ldist level 0 ≤ ldist level (M + 1 - 1)) := by
      unfold ldist
      simp only [Nat.add_sub_cancel]
      omega
    rw [est_pairs_some htop, spec_pairs_some htop, if_neg hcond]
  have hvalues : ∀ m : ℚ, est_values e level d m
      = (spec_closest e level).map fun L => ((e.get_price_information L d).1).map
          fun v => v * m ^ ((level : ℤ) - (L : ℤ)) := by
    intro m
    rw [spec_closest_eq_reverse hchain hmax]
    unfold est_values
    refine flatMap_eq_map_of_mem ?_
    intro L hL
    have hLk : L ∈ e.prices.map Prod.fst := List.mem_reverse.mp hL
    obtain ⟨ds, hds, hdsm⟩ := mem_keys_lookup hLk
    obtain ⟨p, hp, hpd⟩ := hdisc (L, ds) hdsm
    have hp2 : List.lookup d ds = some p := hp
    have hex : p.get_price (some d) = some p.absolute := by
      simp [Price.get_price, hpd]
    have hinfo : (e.get_price_information L d).1 = some p.absolute := by
      unfold Elem.get_price_information
      rw [atCeiling_none hll]
      simp only [Bool.false_eq_true, if_false, hds, hp2]
      simp [Price.get_price]
    simp only [hds, hp2, hex, hinfo]
  unfold Elem.get_new_price_estimate spec_estimate spec_multiplier est_multipliers
  rw [hpairs]
  by_cases hemp :
      (((est_pairs e).filterMap fun ab => calculate_multiplier e ab.1 ab.2).take 5).isEmpty
  · rw [if_pos hemp, if_pos hemp]
  · rw [if_neg hemp, if_neg hemp]
    simp only []
    rw [hvalues (mean (((est_pairs e).filterMap fun ab => calculate_multiplier e ab.1 ab.2).take 5))]
    rw [← List.map_take]

unseal Rat.mul Rat.inv Rat.add Rat.sub Rat.ofScientific in
/-- C3 counterexample: with recorded levels 1..7 (growth ratio 2 between
levels 1 and 2, ratio 3 above) and target level 0, the code scans
top-down and uses the five ratios farthest from the target (m = 3,
estimate 2/9), while the claim's nearest-edge scan uses the five nearest
ratios (m = 14/5) over the five closest levels — the two algorithms
disagree. -/
theorem claim_C3_counterexample :
    elemC3.get_new_price_estimate 0 0 ≠ spec_estimate elemC3 0 0 := by
  decide

/-- A small ascending track used to witness the amended C3. -/
def elemW3 : Elem := ⟨.double, 0, none, [mkP 1 2, mkP 2 4, mkP 3 8]⟩

unseal Rat.mul Rat.inv Rat.add Rat.sub Rat.ofScientific in
/-- Witness for the amended C3: with the target level above all recorded
levels, ascending insertion order and full discount coverage, the code's
estimate coincides with the claim's algorithm. -/
theorem claim_C3_witness :
    elemW3.get_new_price_estimate 5 0 = spec_estimate elemW3 5 0 :=
  claim_C3 elemW3 5 0 rfl
    (by simp [elemW3, mkP, List.chain'_cons])
    (by
      intro kp hkp
      simp only [elemW3, mkP, List.mem_cons, List.not_mem_nil, or_false] at hkp
      rcases hkp with rfl | rfl | rfl
      · exact ⟨_, rfl, rfl⟩
      · exact ⟨_, rfl, rfl⟩
      · exact ⟨_, rfl, rfl⟩)
    (by decide) (by decide)

end Idle
